import Mathlib

/-!
Verification of the sharded concurrent key/value store
(`02-performance-allocation/02-concurrent-map-with-sharded-locks/concurrent.go`).

The store is embedded shallowly: a `ShardedMap` holds a list of shards, each an
association list from keys to values, together with the immutable shard count.
The FNV-64a hash and the modulo reduction of `getShard` are modelled on `Nat`
with explicit truncation modulo `2 ^ 64` where Go performs `uint64` arithmetic.
Go's `fmt.Sprintf` serialization of a key is abstracted as a parameter
`ser : K → List Nat` giving the canonical byte representation of a key; all
operations are parametric in it.  Mutating operations are pure state
transformers; sequences of API calls are modelled by the `Op` type and
`applyOps`, which lets reachable-state invariants be stated by induction over
call sequences.
-/

namespace ShardedKV

/-- FNV-64a offset basis used by Go's `hash/fnv` (`fnv.New64a` initial state). -/
def fnvOffsetBasis : Nat := 14695981039346656037

/-- FNV-64a prime used by Go's `hash/fnv`. -/
def fnvPrime : Nat := 1099511628211

/-- One step of the FNV-1a loop on 64-bit words: xor in one byte, multiply by
the FNV prime, truncate to 64 bits as `uint64` arithmetic does. -/
def fnvStep (h b : Nat) : Nat := ((h ^^^ b) * fnvPrime) % 2 ^ 64

/-- FNV-64a hash of a byte sequence, as computed by `fnv.New64a` followed by
`Write` and `Sum64` inside `hashKey` (concurrent.go lines 60-68). -/
def fnv64a (bytes : List Nat) : Nat := bytes.foldl fnvStep fnvOffsetBasis

/-- Embedding of `hashKey` (concurrent.go lines 60-68): serialize the key to
its canonical byte representation (Go uses `fmt.Sprintf` with verb `v`; the
encoding is abstracted as the parameter `ser`) and FNV-64a hash the bytes. -/
def hashKey {K : Type} (ser : K → List Nat) (k : K) : Nat := fnv64a (ser k)

/-- Embedding of `ShardedMap` (concurrent.go lines 11-17): the slice of shards
and the shard count.  Each shard's `map[K]V` is modelled as an association
list; the per-shard mutex has no observable effect in the sequential model. -/
structure ShardedMap (K V : Type) where
  shards : List (List (K × V))
  numShards : Nat

variable {K V : Type} [DecidableEq K]

/-- Embedding of `getShard` (concurrent.go lines 49-56): FNV-64a hash of the
key reduced modulo the shard count. -/
def getShard (ser : K → List Nat) (m : ShardedMap K V) (k : K) : Nat :=
  hashKey ser k % m.numShards

/-- Lookup in one shard's association list, modelling Go's map indexing
`value, ok := data[key]` restricted to one shard. -/
def getAssoc (k : K) : List (K × V) → Option V
  | [] => none
  | (k₁, v) :: rest => if k₁ = k then some v else getAssoc k rest

/-- Insert-or-overwrite in one shard's association list, modelling Go's map
assignment `data[key] = value` restricted to one shard. -/
def setAssoc (k : K) (v : V) : List (K × V) → List (K × V)
  | [] => [(k, v)]
  | (k₁, v₁) :: rest =>
      if k₁ = k then (k, v) :: rest else (k₁, v₁) :: setAssoc k v rest

/-- Removal from one shard's association list, modelling Go's builtin
`delete(data, key)` restricted to one shard. -/
def delAssoc (k : K) (l : List (K × V)) : List (K × V) :=
  l.filter (fun p => p.1 ≠ k)

/-- The shard an operation on key `k` works on: `m.shards[getShard k]`.  In Go
the index is always in bounds for a store built by `NewShardedMap`; the
default `[]` is never reached on such stores. -/
def shardOf (ser : K → List Nat) (m : ShardedMap K V) (k : K) : List (K × V) :=
  m.shards.getD (getShard ser m k) []

/-- Option-valued lookup: the map entry for `k` in the shard `getShard` routes
`k` to, before the zero-value completion Go's two-valued read performs. -/
def ShardedMap.getOpt (m : ShardedMap K V) (ser : K → List Nat) (k : K) :
    Option V :=
  getAssoc k (shardOf ser m k)

/-- Embedding of `Get` (concurrent.go lines 73-84): route to the owning shard,
look the key up, and return Go's `(value, ok)` pair, where a missing key gives
the zero value of `V` (modelled by `default`) and `false`. -/
def ShardedMap.Get [Inhabited V] (m : ShardedMap K V) (ser : K → List Nat)
    (k : K) : V × Bool :=
  match m.getOpt ser k with
  | some v => (v, true)
  | none => (default, false)

/-- Embedding of `Set` (concurrent.go lines 88-98): route to the owning shard
and insert or overwrite the entry there. -/
def ShardedMap.Set (m : ShardedMap K V) (ser : K → List Nat) (k : K) (v : V) :
    ShardedMap K V :=
  { m with
    shards := m.shards.set (getShard ser m k) (setAssoc k v (shardOf ser m k)) }

/-- Embedding of `Delete` (concurrent.go lines 102-112): route to the owning
shard and remove the entry there if present. -/
def ShardedMap.Delete (m : ShardedMap K V) (ser : K → List Nat) (k : K) :
    ShardedMap K V :=
  { m with
    shards := m.shards.set (getShard ser m k) (delAssoc k (shardOf ser m k)) }

/-- Embedding of `Keys` (concurrent.go lines 117-139): visit the shards in
index order and collect each shard's keys.  The pre-sizing pass of the Go code
only reserves capacity and does not affect the returned sequence. -/
def ShardedMap.Keys (m : ShardedMap K V) : List K :=
  (m.shards.map (fun s => s.map Prod.fst)).flatten

/-- The store state `NewShardedMap` builds for a valid shard count `n`:
`n` shards, each with an empty mapping. -/
def mkStore (K V : Type) (n : Nat) : ShardedMap K V :=
  { shards := List.replicate n [], numShards := n }

/-- Embedding of `NewShardedMap` (concurrent.go lines 27-45): Go panics when
`numShards < 1` (modelled by `none`); otherwise it returns the store with
`numShards` shards, each initialized to an empty map.  The argument is `Int`
to cover Go's signed `int` input. -/
def NewShardedMap (K V : Type) (n : Int) : Option (ShardedMap K V) :=
  if n < 1 then none else some (mkStore K V n.toNat)

/-- One API call against the store.  `get` and `keys` are included so that
call sequences range over the full public surface; they do not mutate. -/
inductive Op (K V : Type) where
  | set (k : K) (v : V)
  | del (k : K)
  | get (k : K)
  | keys

/-- State transformer of one API call: `Set` and `Delete` update the store,
`Get` and `Keys` leave it unchanged. -/
def applyOp (ser : K → List Nat) (m : ShardedMap K V) : Op K V → ShardedMap K V
  | .set k v => m.Set ser k v
  | .del k => m.Delete ser k
  | .get _ => m
  | .keys => m

/-- State after a sequence of API calls, applied left to right. -/
def applyOps (ser : K → List Nat) (m : ShardedMap K V) (ops : List (Op K V)) :
    ShardedMap K V :=
  ops.foldl (applyOp ser) m

/-- The call neither sets nor deletes key `k` (reads are unrestricted). -/
def Op.avoids (k : K) : Op K V → Prop
  | .set k₁ _ => k₁ ≠ k
  | .del k₁ => k₁ ≠ k
  | .get _ => True
  | .keys => True

/-- The call is not a `Set` on key `k` (deletes and reads are unrestricted). -/
def Op.noSet (k : K) : Op K V → Prop
  | .set k₁ _ => k₁ ≠ k
  | _ => True

/-- Size coherence: at least one shard, and the shard slice has exactly
`numShards` entries, so every routed index is in bounds. -/
def Sized (m : ShardedMap K V) : Prop :=
  1 ≤ m.numShards ∧ m.shards.length = m.numShards

/-- Placement invariant: every key stored in shard `i` is routed to `i` by
`getShard`, and each shard's keys are duplicate-free.  Shards are read with
`getD`; an out-of-range index yields `[]` and makes the conditions vacuous. -/
def WF (ser : K → List Nat) (m : ShardedMap K V) : Prop :=
  Sized m ∧
  (∀ i, ∀ x ∈ (m.shards.getD i []).map Prod.fst, getShard ser m x = i) ∧
  (∀ i, ((m.shards.getD i []).map Prod.fst).Nodup)

/-- Concrete serialization for natural-number keys mirroring Go's `Sprintf`
with verb `v` on integers: the ASCII bytes of the decimal representation. -/
def serNat (n : Nat) : List Nat := (Nat.toDigits 10 n).map Char.toNat

/-! ### Association-list lemmas -/

theorem getAssoc_setAssoc_self (k : K) (v : V) (l : List (K × V)) :
    getAssoc k (setAssoc k v l) = some v := by
  induction l with
  | nil => simp [setAssoc, getAssoc]
  | cons p rest ih =>
    obtain ⟨k₁, v₁⟩ := p
    by_cases h : k₁ = k <;> simp [setAssoc, getAssoc, h, ih]

theorem getAssoc_setAssoc_ne {k₁ k : K} (hne : k₁ ≠ k) (v : V)
    (l : List (K × V)) : getAssoc k₁ (setAssoc k v l) = getAssoc k₁ l := by
  have hne₁ : k ≠ k₁ := Ne.symm hne
  induction l with
  | nil => simp [setAssoc, getAssoc, hne₁]
  | cons p rest ih =>
    obtain ⟨k₂, v₂⟩ := p
    by_cases h : k₂ = k
    · subst h
      simp [setAssoc, getAssoc, hne₁]
    · simp [setAssoc, getAssoc, h, ih]

theorem getAssoc_delAssoc_self (k : K) (l : List (K × V)) :
    getAssoc k (delAssoc k l) = none := by
  induction l with
  | nil => simp [delAssoc, getAssoc]
  | cons p rest ih =>
    obtain ⟨k₁, v₁⟩ := p
    by_cases h : k₁ = k <;> simp_all [delAssoc, getAssoc, List.filter_cons, h]

theorem getAssoc_delAssoc_ne {k₁ k : K} (hne : k₁ ≠ k) (l : List (K × V)) :
    getAssoc k₁ (delAssoc k l) = getAssoc k₁ l := by
  have hne₁ : k ≠ k₁ := Ne.symm hne
  induction l with
  | nil => simp [delAssoc, getAssoc]
  | cons p rest ih =>
    obtain ⟨k₂, v₂⟩ := p
    by_cases h : k₂ = k
    · subst h
      simp_all [delAssoc, getAssoc, List.filter_cons, hne₁]
    · by_cases h₁ : k₂ = k₁ <;>
        simp_all [delAssoc, getAssoc, List.filter_cons, h, h₁]

theorem setAssoc_setAssoc (k : K) (v₁ v₂ : V) (l : List (K × V)) :
    setAssoc k v₂ (setAssoc k v₁ l) = setAssoc k v₂ l := by
  induction l with
  | nil => simp [setAssoc]
  | cons p rest ih =>
    obtain ⟨k₁, w⟩ := p
    by_cases h : k₁ = k <;> simp [setAssoc, h, ih]

theorem delAssoc_delAssoc (k : K) (l : List (K × V)) :
    delAssoc k (delAssoc k l) = delAssoc k l := by
  simp [delAssoc, List.filter_filter]

theorem getAssoc_eq_none_iff (k : K) (l : List (K × V)) :
    getAssoc k l = none ↔ ∀ p ∈ l, p.1 ≠ k := by
  induction l with
  | nil => simp [getAssoc]
  | cons p rest ih =>
    obtain ⟨k₁, v₁⟩ := p
    by_cases h : k₁ = k <;> simp [getAssoc, h, ih]

theorem delAssoc_of_getAssoc_none {k : K} {l : List (K × V)}
    (h : getAssoc k l = none) : delAssoc k l = l := by
  rw [getAssoc_eq_none_iff] at h
  exact List.filter_eq_self.2 (fun p hp => by simpa using h p hp)

theorem mem_keys_iff_getAssoc (k : K) (l : List (K × V)) :
    k ∈ l.map Prod.fst ↔ getAssoc k l ≠ none := by
  rw [Ne, getAssoc_eq_none_iff]
  simp only [List.mem_map, not_forall]
  constructor
  · rintro ⟨p, hp, hk⟩
    exact ⟨p, hp, by simp [hk]⟩
  · rintro ⟨p, hp, hk⟩
    exact ⟨p, hp, by simpa using hk⟩

theorem keys_setAssoc_of_mem {k : K} {l : List (K × V)}
    (h : k ∈ l.map Prod.fst) (v : V) :
    (setAssoc k v l).map Prod.fst = l.map Prod.fst := by
  induction l with
  | nil => simp at h
  | cons p rest ih =>
    obtain ⟨k₁, v₁⟩ := p
    by_cases hk : k₁ = k
    · simp [setAssoc, hk]
    · have : k ∈ rest.map Prod.fst := by
        simp at h
        rcases h with h | h
        · exact absurd h.symm hk
        · simpa using h
      simp [setAssoc, hk, ih this]

theorem keys_setAssoc_of_not_mem {k : K} {l : List (K × V)}
    (h : k ∉ l.map Prod.fst) (v : V) :
    (setAssoc k v l).map Prod.fst = l.map Prod.fst ++ [k] := by
  induction l with
  | nil => simp [setAssoc]
  | cons p rest ih =>
    obtain ⟨k₁, v₁⟩ := p
    have hk : k₁ ≠ k := by
      intro he
      exact h (by simp [he])
    have hrest : k ∉ rest.map Prod.fst := fun hr => h (by simp [hr])
    simp [setAssoc, hk, ih hrest]

theorem nodup_keys_setAssoc {k : K} {l : List (K × V)}
    (h : (l.map Prod.fst).Nodup) (v : V) :
    ((setAssoc k v l).map Prod.fst).Nodup := by
  by_cases hm : k ∈ l.map Prod.fst
  · rw [keys_setAssoc_of_mem hm]
    exact h
  · rw [keys_setAssoc_of_not_mem hm]
    refine h.append (List.nodup_singleton k) ?_
    intro x hx hxk
    rw [List.mem_singleton] at hxk
    subst hxk
    exact hm hx

theorem keys_setAssoc_subset {k : K} (v : V) (l : List (K × V)) {x : K}
    (hx : x ∈ (setAssoc k v l).map Prod.fst) :
    x ∈ l.map Prod.fst ∨ x = k := by
  by_cases hm : k ∈ l.map Prod.fst
  · rw [keys_setAssoc_of_mem hm] at hx
    exact Or.inl hx
  · rw [keys_setAssoc_of_not_mem hm] at hx
    simpa using hx

theorem keys_delAssoc_subset (k : K) (l : List (K × V)) {x : K}
    (hx : x ∈ (delAssoc k l).map Prod.fst) : x ∈ l.map Prod.fst := by
  rcases List.mem_map.1 hx with ⟨p, hp, hpx⟩
  exact List.mem_map.2 ⟨p, List.mem_of_mem_filter hp, hpx⟩

theorem nodup_keys_delAssoc {l : List (K × V)} (h : (l.map Prod.fst).Nodup)
    (k : K) : ((delAssoc k l).map Prod.fst).Nodup := by
  have hs : (delAssoc k l).Sublist l := List.filter_sublist l
  exact (hs.map Prod.fst).nodup h

/-! ### Generic list helper -/

theorem set_getD_self {α : Type} (l : List α) (i : Nat) (d : α) :
    l.set i (l.getD i d) = l := by
  apply List.ext_getElem?
  intro n
  rw [List.getElem?_set]
  by_cases hin : i = n
  · subst hin
    by_cases hlen : i < l.length
    · rw [if_pos rfl, if_pos hlen, List.getD_eq_getElem?_getD,
        List.getElem?_eq_getElem hlen]
      rfl
    · rw [if_pos rfl, if_neg hlen]
      exact (List.getElem?_eq_none (Nat.le_of_not_lt hlen)).symm
  · rw [if_neg hin]

theorem getD_set_self {α : Type} {l : List α} {i : Nat} (h : i < l.length)
    (a d : α) : (l.set i a).getD i d = a := by
  rw [List.getD_eq_getElem?_getD, List.getElem?_set_self h]
  rfl

theorem getD_set_ne {α : Type} (l : List α) {i j : Nat} (h : i ≠ j)
    (a d : α) : (l.set i a).getD j d = l.getD j d := by
  rw [List.getD_eq_getElem?_getD, List.getElem?_set_ne h,
    List.getD_eq_getElem?_getD]

/-! ### Store-level lemmas -/

variable (ser : K → List Nat)

theorem getShard_lt {m : ShardedMap K V} (h : 1 ≤ m.numShards) (k : K) :
    getShard ser m k < m.numShards :=
  Nat.mod_lt _ h

theorem getShard_congr {m₁ m₂ : ShardedMap K V} (k : K)
    (h : m₁.numShards = m₂.numShards) :
    getShard ser m₁ k = getShard ser m₂ k := by
  simp [getShard, h]

theorem getShard_set_op (m : ShardedMap K V) (k : K) (v : V) (k₁ : K) :
    getShard ser (m.Set ser k v) k₁ = getShard ser m k₁ := rfl

theorem getShard_del_op (m : ShardedMap K V) (k : K) (k₁ : K) :
    getShard ser (m.Delete ser k) k₁ = getShard ser m k₁ := rfl

theorem length_shards_set_op (m : ShardedMap K V) (k : K) (v : V) :
    (m.Set ser k v).shards.length = m.shards.length := by
  simp [ShardedMap.Set]

theorem length_shards_del_op (m : ShardedMap K V) (k : K) :
    (m.Delete ser k).shards.length = m.shards.length := by
  simp [ShardedMap.Delete]

theorem Sized_set_op {m : ShardedMap K V} (h : Sized m) (k : K) (v : V) :
    Sized (m.Set ser k v) :=
  ⟨h.1, by rw [length_shards_set_op]; exact h.2⟩

theorem Sized_del_op {m : ShardedMap K V} (h : Sized m) (k : K) :
    Sized (m.Delete ser k) :=
  ⟨h.1, by rw [length_shards_del_op]; exact h.2⟩

theorem Sized_applyOp {m : ShardedMap K V} (h : Sized m) (op : Op K V) :
    Sized (applyOp ser m op) := by
  cases op with
  | set k v => exact Sized_set_op ser h k v
  | del k => exact Sized_del_op ser h k
  | get _ => exact h
  | keys => exact h

theorem applyOps_nil (m : ShardedMap K V) : applyOps ser m [] = m := rfl

theorem applyOps_cons (m : ShardedMap K V) (op : Op K V)
    (ops : List (Op K V)) :
    applyOps ser m (op :: ops) = applyOps ser (applyOp ser m op) ops := rfl

theorem applyOps_append (m : ShardedMap K V) (l₁ l₂ : List (Op K V)) :
    applyOps ser m (l₁ ++ l₂) = applyOps ser (applyOps ser m l₁) l₂ := by
  simp [applyOps, List.foldl_append]

theorem Sized_applyOps {m : ShardedMap K V} (h : Sized m)
    (ops : List (Op K V)) : Sized (applyOps ser m ops) := by
  induction ops generalizing m with
  | nil => exact h
  | cons op rest ih => exact ih (Sized_applyOp ser h op)

theorem numShards_applyOp (m : ShardedMap K V) (op : Op K V) :
    (applyOp ser m op).numShards = m.numShards := by
  cases op <;> rfl

theorem numShards_applyOps (m : ShardedMap K V) (ops : List (Op K V)) :
    (applyOps ser m ops).numShards = m.numShards := by
  induction ops generalizing m with
  | nil => rfl
  | cons op rest ih =>
    rw [applyOps_cons, ih, numShards_applyOp]

theorem getOpt_set_op {m : ShardedMap K V} (hm : Sized m) (k k₁ : K)
    (v : V) :
    (m.Set ser k v).getOpt ser k₁ =
      if k₁ = k then some v else m.getOpt ser k₁ := by
  obtain ⟨h₁, h₂⟩ := hm
  have hi : getShard ser m k < m.shards.length := by
    rw [h₂]
    exact getShard_lt ser h₁ k
  have hsh : getShard ser (m.Set ser k v) k₁ = getShard ser m k₁ := rfl
  unfold ShardedMap.getOpt shardOf
  rw [hsh]
  show getAssoc k₁
      ((m.shards.set (getShard ser m k)
        (setAssoc k v (shardOf ser m k))).getD (getShard ser m k₁) []) = _
  by_cases hj : getShard ser m k = getShard ser m k₁
  · rw [← hj, getD_set_self hi]
    by_cases hk : k₁ = k
    · subst hk
      rw [if_pos rfl]
      exact getAssoc_setAssoc_self k₁ v _
    · rw [if_neg hk, getAssoc_setAssoc_ne hk v]
      unfold shardOf
      rw [hj]
  · have hk : k₁ ≠ k := by
      intro he
      exact hj (by rw [he])
    rw [getD_set_ne _ hj, if_neg hk]

theorem getOpt_del_op {m : ShardedMap K V} (hm : Sized m) (k k₁ : K) :
    (m.Delete ser k).getOpt ser k₁ =
      if k₁ = k then none else m.getOpt ser k₁ := by
  obtain ⟨h₁, h₂⟩ := hm
  have hi : getShard ser m k < m.shards.length := by
    rw [h₂]
    exact getShard_lt ser h₁ k
  have hsh : getShard ser (m.Delete ser k) k₁ = getShard ser m k₁ := rfl
  unfold ShardedMap.getOpt shardOf
  rw [hsh]
  show getAssoc k₁
      ((m.shards.set (getShard ser m k)
        (delAssoc k (shardOf ser m k))).getD (getShard ser m k₁) []) = _
  by_cases hj : getShard ser m k = getShard ser m k₁
  · rw [← hj, getD_set_self hi]
    by_cases hk : k₁ = k
    · subst hk
      rw [if_pos rfl]
      exact getAssoc_delAssoc_self k₁ _
    · rw [if_neg hk, getAssoc_delAssoc_ne hk]
      unfold shardOf
      rw [hj]
  · have hk : k₁ ≠ k := by
      intro he
      exact hj (by rw [he])
    rw [getD_set_ne _ hj, if_neg hk]

theorem getOpt_set_op_self {m : ShardedMap K V} (hm : Sized m) (k : K)
    (v : V) : (m.Set ser k v).getOpt ser k = some v := by
  rw [getOpt_set_op ser hm, if_pos rfl]

theorem getOpt_del_op_self {m : ShardedMap K V} (hm : Sized m) (k : K) :
    (m.Delete ser k).getOpt ser k = none := by
  rw [getOpt_del_op ser hm, if_pos rfl]

theorem getOpt_applyOp_avoids {m : ShardedMap K V} (hm : Sized m)
    {op : Op K V} {k : K} (h : op.avoids k) :
    (applyOp ser m op).getOpt ser k = m.getOpt ser k := by
  cases op with
  | set k₁ v =>
    rw [show applyOp ser m (.set k₁ v) = m.Set ser k₁ v from rfl,
      getOpt_set_op ser hm, if_neg (Ne.symm h)]
  | del k₁ =>
    rw [show applyOp ser m (.del k₁) = m.Delete ser k₁ from rfl,
      getOpt_del_op ser hm, if_neg (Ne.symm h)]
  | get _ => rfl
  | keys => rfl

theorem getOpt_applyOps_avoids {m : ShardedMap K V} (hm : Sized m)
    {ops : List (Op K V)} {k : K} (h : ∀ op ∈ ops, op.avoids k) :
    (applyOps ser m ops).getOpt ser k = m.getOpt ser k := by
  induction ops generalizing m with
  | nil => rfl
  | cons op rest ih =>
    rw [applyOps_cons,
      ih (Sized_applyOp ser hm op) (fun o ho => h o (List.mem_cons_of_mem _ ho)),
      getOpt_applyOp_avoids ser hm (h op (List.mem_cons_self _ _))]

theorem getOpt_applyOps_noSet {m : ShardedMap K V} (hm : Sized m)
    {ops : List (Op K V)} {k : K} (habs : m.getOpt ser k = none)
    (h : ∀ op ∈ ops, op.noSet k) :
    (applyOps ser m ops).getOpt ser k = none := by
  induction ops generalizing m with
  | nil => exact habs
  | cons op rest ih =>
    rw [applyOps_cons]
    refine ih (Sized_applyOp ser hm op) ?_
      (fun o ho => h o (List.mem_cons_of_mem _ ho))
    cases op with
    | set k₁ v =>
      have hk : k₁ ≠ k := h _ (List.mem_cons_self _ _)
      rw [show applyOp ser m (.set k₁ v) = m.Set ser k₁ v from rfl,
        getOpt_set_op ser hm, if_neg (Ne.symm hk)]
      exact habs
    | del k₁ =>
      rw [show applyOp ser m (.del k₁) = m.Delete ser k₁ from rfl,
        getOpt_del_op ser hm]
      by_cases hk : k = k₁
      · rw [if_pos hk]
      · rw [if_neg hk]
        exact habs
    | get _ => exact habs
    | keys => exact habs

/-! ### Fresh-store lemmas -/

theorem getD_eq_getElem {α : Type} {l : List α} {i : Nat} (h : i < l.length)
    (d : α) : l.getD i d = l[i] := by
  rw [List.getD_eq_getElem?_getD, List.getElem?_eq_getElem h]
  rfl

theorem getD_replicate_nil {α : Type} (n i : Nat) :
    (List.replicate n ([] : List α)).getD i [] = [] := by
  rcases Nat.lt_or_ge i n with h | h
  · rw [getD_eq_getElem (by simpa using h)]
    simp
  · rw [List.getD_eq_getElem?_getD, List.getElem?_eq_none (by simpa using h)]
    rfl

theorem Sized_mkStore {n : Nat} (h : 1 ≤ n) : Sized (mkStore K V n) :=
  ⟨h, by simp [mkStore]⟩

theorem getOpt_mkStore (n : Nat) (k : K) :
    (mkStore K V n).getOpt ser k = none := by
  rw [ShardedMap.getOpt, shardOf]
  show getAssoc k ((List.replicate n []).getD _ []) = none
  rw [getD_replicate_nil]
  rfl

theorem Keys_mkStore (n : Nat) : (mkStore K V n).Keys = [] := by
  show ((List.replicate n ([] : List (K × V))).map
    (fun s => s.map Prod.fst)).flatten = []
  induction n with
  | zero => rfl
  | succ j ih => simpa [List.replicate_succ] using ih

theorem WF_mkStore {n : Nat} (h : 1 ≤ n) : WF ser (mkStore K V n) := by
  refine ⟨Sized_mkStore h, ?_, ?_⟩
  · intro i x hx
    rw [show (mkStore K V n).shards = List.replicate n [] from rfl,
      getD_replicate_nil] at hx
    simp at hx
  · intro i
    rw [show (mkStore K V n).shards = List.replicate n [] from rfl,
      getD_replicate_nil]
    simp

/-! ### Preservation of the placement invariant -/

theorem WF_set_op {m : ShardedMap K V} (h : WF ser m) (k : K) (v : V) :
    WF ser (m.Set ser k v) := by
  obtain ⟨hs, hplace, hnodup⟩ := h
  have hi : getShard ser m k < m.shards.length := by
    rw [hs.2]
    exact getShard_lt ser hs.1 k
  have hsh : (m.Set ser k v).shards =
      m.shards.set (getShard ser m k) (setAssoc k v (shardOf ser m k)) := rfl
  refine ⟨Sized_set_op ser hs k v, ?_, ?_⟩
  · intro j x hx
    show getShard ser m x = j
    by_cases hji : j = getShard ser m k
    · rw [hsh, hji, getD_set_self hi] at hx
      rcases keys_setAssoc_subset v _ hx with hmem | hxk
      · rw [hji]
        exact hplace _ x hmem
      · subst hxk
        omega
    · rw [hsh, getD_set_ne _ (fun he => hji he.symm)] at hx
      exact hplace j x hx
  · intro j
    show (((m.Set ser k v).shards.getD j []).map Prod.fst).Nodup
    by_cases hji : j = getShard ser m k
    · rw [hsh, hji, getD_set_self hi]
      exact nodup_keys_setAssoc (hnodup _) v
    · rw [hsh, getD_set_ne _ (fun he => hji he.symm)]
      exact hnodup j

theorem WF_del_op {m : ShardedMap K V} (h : WF ser m) (k : K) :
    WF ser (m.Delete ser k) := by
  obtain ⟨hs, hplace, hnodup⟩ := h
  have hi : getShard ser m k < m.shards.length := by
    rw [hs.2]
    exact getShard_lt ser hs.1 k
  have hsh : (m.Delete ser k).shards =
      m.shards.set (getShard ser m k) (delAssoc k (shardOf ser m k)) := rfl
  refine ⟨Sized_del_op ser hs k, ?_, ?_⟩
  · intro j x hx
    show getShard ser m x = j
    by_cases hji : j = getShard ser m k
    · rw [hsh, hji, getD_set_self hi] at hx
      have hmem := keys_delAssoc_subset k _ hx
      rw [hji]
      exact hplace _ x hmem
    · rw [hsh, getD_set_ne _ (fun he => hji he.symm)] at hx
      exact hplace j x hx
  · intro j
    show (((m.Delete ser k).shards.getD j []).map Prod.fst).Nodup
    by_cases hji : j = getShard ser m k
    · rw [hsh, hji, getD_set_self hi]
      exact nodup_keys_delAssoc (hnodup _) k
    · rw [hsh, getD_set_ne _ (fun he => hji he.symm)]
      exact hnodup j

theorem WF_applyOp {m : ShardedMap K V} (h : WF ser m) (op : Op K V) :
    WF ser (applyOp ser m op) := by
  cases op with
  | set k v => exact WF_set_op ser h k v
  | del k => exact WF_del_op ser h k
  | get _ => exact h
  | keys => exact h

theorem WF_applyOps {m : ShardedMap K V} (h : WF ser m)
    (ops : List (Op K V)) : WF ser (applyOps ser m ops) := by
  induction ops generalizing m with
  | nil => exact h
  | cons op rest ih => exact ih (WF_applyOp ser h op)

/-! ### Keys characterization under the invariant -/

theorem mem_Keys_iff_getOpt {m : ShardedMap K V} (h : WF ser m) (k : K) :
    k ∈ m.Keys ↔ m.getOpt ser k ≠ none := by
  obtain ⟨⟨h₁, h₂⟩, hplace, _⟩ := h
  constructor
  · intro hk
    rw [ShardedMap.Keys, List.mem_flatten] at hk
    obtain ⟨l, hl, hkl⟩ := hk
    rw [List.mem_map] at hl
    obtain ⟨s, hs, rfl⟩ := hl
    obtain ⟨i, hi, rfl⟩ := List.getElem_of_mem hs
    have hroute : getShard ser m k = i :=
      hplace i k (by rw [getD_eq_getElem hi]; exact hkl)
    rw [ShardedMap.getOpt, shardOf, hroute, getD_eq_getElem hi,
      ← mem_keys_iff_getAssoc]
    exact hkl
  · intro hk
    have hi : getShard ser m k < m.shards.length := by
      rw [h₂]
      exact getShard_lt ser h₁ k
    rw [ShardedMap.getOpt, shardOf, getD_eq_getElem hi,
      ← mem_keys_iff_getAssoc] at hk
    rw [ShardedMap.Keys, List.mem_flatten]
    exact ⟨_, List.mem_map.2 ⟨_, List.getElem_mem hi, rfl⟩, hk⟩

theorem nodup_Keys {m : ShardedMap K V} (h : WF ser m) : m.Keys.Nodup := by
  obtain ⟨⟨h₁, h₂⟩, hplace, hnodup⟩ := h
  rw [ShardedMap.Keys, List.nodup_flatten]
  constructor
  · intro l hl
    rw [List.mem_map] at hl
    obtain ⟨s, hs, rfl⟩ := hl
    obtain ⟨i, hi, rfl⟩ := List.getElem_of_mem hs
    rw [← getD_eq_getElem hi]
    exact hnodup i
  · rw [List.pairwise_iff_getElem]
    intro i j hi hj hij
    have hi₁ : i < m.shards.length := by simpa using hi
    have hj₁ : j < m.shards.length := by simpa using hj
    simp only [List.getElem_map]
    intro x hxi hxj
    have e₁ : getShard ser m x = i :=
      hplace i x (by rw [getD_eq_getElem hi₁]; exact hxi)
    have e₂ : getShard ser m x = j :=
      hplace j x (by rw [getD_eq_getElem hj₁]; exact hxj)
    omega

/-! ### Record equality and algebraic equations on stores -/

theorem ShardedMap.ext_store {m₁ m₂ : ShardedMap K V}
    (h₁ : m₁.shards = m₂.shards) (h₂ : m₁.numShards = m₂.numShards) :
    m₁ = m₂ := by
  cases m₁
  cases m₂
  cases h₁
  cases h₂
  rfl

theorem delete_delete (m : ShardedMap K V) (k : K) :
    (m.Delete ser k).Delete ser k = m.Delete ser k := by
  refine ShardedMap.ext_store ?_ rfl
  show (m.Delete ser k).shards.set (getShard ser m k)
      (delAssoc k (shardOf ser (m.Delete ser k) k)) = (m.Delete ser k).shards
  rcases Nat.lt_or_ge (getShard ser m k) m.shards.length with hi | hi
  · have h₁ : shardOf ser (m.Delete ser k) k = delAssoc k (shardOf ser m k) := by
      show (m.shards.set (getShard ser m k) _).getD (getShard ser m k) [] = _
      rw [getD_set_self hi]
    rw [h₁, delAssoc_delAssoc]
    show (m.shards.set _ _).set _ _ = m.shards.set _ _
    rw [List.set_set]
  · exact List.set_eq_of_length_le
      (by rw [length_shards_del_op]; exact hi)

theorem delete_absent {m : ShardedMap K V} {k : K}
    (h : m.getOpt ser k = none) : m.Delete ser k = m := by
  refine ShardedMap.ext_store ?_ rfl
  show m.shards.set (getShard ser m k) (delAssoc k (shardOf ser m k)) =
    m.shards
  rw [delAssoc_of_getAssoc_none h]
  exact set_getD_self m.shards _ []

theorem set_set_store (m : ShardedMap K V) (k : K) (v₁ v₂ : V) :
    (m.Set ser k v₁).Set ser k v₂ = m.Set ser k v₂ := by
  refine ShardedMap.ext_store ?_ rfl
  show (m.Set ser k v₁).shards.set (getShard ser m k)
      (setAssoc k v₂ (shardOf ser (m.Set ser k v₁) k)) = (m.Set ser k v₂).shards
  rcases Nat.lt_or_ge (getShard ser m k) m.shards.length with hi | hi
  · have h₁ : shardOf ser (m.Set ser k v₁) k = setAssoc k v₁ (shardOf ser m k) := by
      show (m.shards.set (getShard ser m k) _).getD (getShard ser m k) [] = _
      rw [getD_set_self hi]
    rw [h₁, setAssoc_setAssoc]
    show (m.shards.set _ _).set _ _ = m.shards.set _ _
    rw [List.set_set]
  · have e₁ : (m.Set ser k v₁).shards = m.shards :=
      List.set_eq_of_length_le hi
    have e₂ : (m.Set ser k v₂).shards = m.shards :=
      List.set_eq_of_length_le hi
    rw [List.set_eq_of_length_le (by rw [length_shards_set_op]; exact hi),
      e₁, e₂]

theorem get_set_self [Inhabited V] {m : ShardedMap K V} (hm : Sized m)
    (k : K) (v : V) : (m.Set ser k v).Get ser k = (v, true) := by
  have h := getOpt_set_op_self ser hm k v
  simp [ShardedMap.Get, h]

/-! ### The FNV hash is a 64-bit value -/

theorem foldl_fnvStep_lt (l : List Nat) (h : Nat) (hh : h < 2 ^ 64) :
    l.foldl fnvStep h < 2 ^ 64 := by
  induction l generalizing h with
  | nil => exact hh
  | cons b t ih =>
    exact ih (fnvStep h b) (Nat.mod_lt _ (by norm_num))

theorem fnv64a_lt (bytes : List Nat) : fnv64a bytes < 2 ^ 64 :=
  foldl_fnvStep_lt bytes fnvOffsetBasis (by norm_num [fnvOffsetBasis])

theorem hashKey_lt (k : K) : hashKey ser k < 2 ^ 64 :=
  fnv64a_lt (ser k)

/-! ### Constructor facts -/

theorem new_some {n : Int} {m : ShardedMap K V}
    (h : NewShardedMap K V n = some m) :
    1 ≤ n ∧ m = mkStore K V n.toNat := by
  unfold NewShardedMap at h
  by_cases hn : n < 1
  · rw [if_pos hn] at h
    exact absurd h (by simp)
  · rw [if_neg hn] at h
    exact ⟨by omega, (Option.some_inj.1 h).symm⟩

theorem Sized_of_new {n : Int} {m : ShardedMap K V}
    (h : NewShardedMap K V n = some m) : Sized m := by
  obtain ⟨hn, rfl⟩ := new_some h
  exact Sized_mkStore (by omega)

theorem WF_of_new {n : Int} {m : ShardedMap K V}
    (h : NewShardedMap K V n = some m) : WF ser m := by
  obtain ⟨hn, rfl⟩ := new_some h
  exact WF_mkStore ser (by omega)

/-! ### Spec-level abstract map, for the degenerate-case equivalence -/

/-- Spec-level view of one call on the abstract key-to-value map used by the
degenerate-case equivalence claim: the spec says the store behaves as one
mapping regardless of the shard count, with `Set` an unconditional overwrite,
`Delete` a removal, and reads leaving the mapping unchanged. -/
def specApplyOp (f : K → Option V) : Op K V → K → Option V
  | .set k v => fun k₁ => if k₁ = k then some v else f k₁
  | .del k => fun k₁ => if k₁ = k then none else f k₁
  | .get _ => f
  | .keys => f

/-- Spec-level abstract map after a sequence of calls, starting from `f`. -/
def specApplyOps (f : K → Option V) (ops : List (Op K V)) : K → Option V :=
  ops.foldl specApplyOp f

theorem specApplyOps_cons (f : K → Option V) (op : Op K V)
    (ops : List (Op K V)) :
    specApplyOps f (op :: ops) = specApplyOps (specApplyOp f op) ops := rfl

theorem getOpt_applyOps_spec {m : ShardedMap K V} (hm : Sized m)
    (ops : List (Op K V)) (k : K) :
    (applyOps ser m ops).getOpt ser k =
      specApplyOps (fun k₁ => m.getOpt ser k₁) ops k := by
  induction ops generalizing m with
  | nil => rfl
  | cons op rest ih =>
    have hfun : (fun k₁ => (applyOp ser m op).getOpt ser k₁) =
        specApplyOp (fun k₁ => m.getOpt ser k₁) op := by
      funext k₁
      cases op with
      | set k₂ v => exact getOpt_set_op ser hm k₂ k₁ v
      | del k₂ => exact getOpt_del_op ser hm k₂ k₁
      | get _ => rfl
      | keys => rfl
    rw [applyOps_cons, ih (Sized_applyOp ser hm op), specApplyOps_cons, hfun]

/-! ### Claim theorems -/

/-- Claim C1: for every key `k` and value `v`, on any store created by
`NewShardedMap` with a valid shard count and then subjected to any call
history, after `Set k v` a subsequent `Get k` returns `(v, true)` provided no
intervening call sets or deletes `k` (calls on other keys, and reads, are
allowed in between). -/
theorem claim_C1 [Inhabited V] {n : Int} {m₀ : ShardedMap K V}
    (hnew : NewShardedMap K V n = some m₀) (hist : List (Op K V)) (k : K)
    (v : V) (ops : List (Op K V)) (hops : ∀ op ∈ ops, op.avoids k) :
    (applyOps ser ((applyOps ser m₀ hist).Set ser k v) ops).Get ser k =
      (v, true) := by
  have hs : Sized (applyOps ser m₀ hist) :=
    Sized_applyOps ser (Sized_of_new hnew) hist
  have h₁ : (applyOps ser ((applyOps ser m₀ hist).Set ser k v) ops).getOpt ser k
      = some v := by
    rw [getOpt_applyOps_avoids ser (Sized_set_op ser hs k v) hops,
      getOpt_set_op_self ser hs]
  simp [ShardedMap.Get, h₁]

theorem claim_C1_witness :
    (applyOps serNat ((applyOps serNat (mkStore Nat Nat 2) []).Set serNat 0 42)
      [Op.set 1 5]).Get serNat 0 = (42, true) :=
  claim_C1 serNat (n := 2) rfl [] 0 42 [Op.set 1 5]
    (by
      intro op hop
      rw [List.mem_singleton] at hop
      subst hop
      show (1 : Nat) ≠ 0
      decide)

/-- Claim C2: on a store created by `NewShardedMap`, if every `Set` of key `k`
in the call sequence is followed by a later `Delete k` with no later `Set k`
(equivalently: either no call sets `k`, or the sequence decomposes around a
final `Delete k` after which no call sets `k`), then `Get k` returns the zero
value of `V` and `false`; absence is a normal result, not an error. -/
theorem claim_C2 [Inhabited V] {n : Int} {m₀ : ShardedMap K V}
    (hnew : NewShardedMap K V n = some m₀) (ops : List (Op K V)) (k : K)
    (hcond : (∀ op ∈ ops, op.noSet k) ∨
      ∃ l₁ l₂, ops = l₁ ++ Op.del k :: l₂ ∧ ∀ op ∈ l₂, op.noSet k) :
    (applyOps ser m₀ ops).Get ser k = (default, false) := by
  obtain ⟨hn, rfl⟩ := new_some hnew
  have hs : Sized (mkStore K V n.toNat) := Sized_mkStore (by omega)
  have h₁ : (applyOps ser (mkStore K V n.toNat) ops).getOpt ser k = none := by
    rcases hcond with h | ⟨l₁, l₂, rfl, h₂⟩
    · exact getOpt_applyOps_noSet ser hs (getOpt_mkStore ser _ k) h
    · rw [applyOps_append, applyOps_cons]
      have hs₁ : Sized (applyOps ser (mkStore K V n.toNat) l₁) :=
        Sized_applyOps ser hs l₁
      exact getOpt_applyOps_noSet ser (Sized_del_op ser hs₁ k)
        (getOpt_del_op_self ser hs₁ k) h₂
  simp [ShardedMap.Get, h₁]

theorem claim_C2_witness :
    (applyOps serNat (mkStore Nat Nat 2) [Op.set 1 7, Op.del 1]).Get serNat 1 =
      (default, false) :=
  claim_C2 serNat (n := 2) rfl [Op.set 1 7, Op.del 1] 1
    (Or.inr ⟨[Op.set 1 7], [], rfl, by intro op hop; simp at hop⟩)

/-- Claim C3: `NewShardedMap` fails fast (modelled by `none` for Go's panic)
exactly when the requested shard count is below one; for any count of at
least one it returns a store with exactly that many shards, each empty, on
which every `Get` returns the zero value with `false` and `Keys` returns the
empty sequence. -/
theorem claim_C3 [Inhabited V] (n : Int) :
    (NewShardedMap K V n = none ↔ n < 1) ∧
    (1 ≤ n → ∃ m : ShardedMap K V, NewShardedMap K V n = some m ∧
      (m.shards.length : Int) = n ∧ m.numShards = m.shards.length ∧
      (∀ s ∈ m.shards, s = []) ∧
      (∀ k : K, m.Get ser k = (default, false)) ∧ m.Keys = []) := by
  constructor
  · by_cases hn : n < 1
    · simp [NewShardedMap, hn]
    · simp [NewShardedMap, hn]
  · intro hn
    refine ⟨mkStore K V n.toNat, ?_, ?_, ?_, ?_, ?_, ?_⟩
    · rw [NewShardedMap, if_neg (by omega)]
    · show ((List.replicate n.toNat ([] : List (K × V))).length : Int) = n
      rw [List.length_replicate]
      omega
    · show n.toNat = (List.replicate n.toNat ([] : List (K × V))).length
      rw [List.length_replicate]
    · intro s hs
      exact List.eq_of_mem_replicate hs
    · intro k
      have h := getOpt_mkStore ser (K := K) (V := V) n.toNat k
      simp [ShardedMap.Get, h]
    · exact Keys_mkStore n.toNat

theorem claim_C3_witness :
    (NewShardedMap Nat Nat 0 = none ↔ (0 : Int) < 1) ∧
    (∃ m : ShardedMap Nat Nat, NewShardedMap Nat Nat 3 = some m ∧
      (m.shards.length : Int) = 3 ∧ m.numShards = m.shards.length ∧
      (∀ s ∈ m.shards, s = []) ∧
      (∀ k : Nat, m.Get serNat k = (default, false)) ∧ m.Keys = []) :=
  ⟨(claim_C3 serNat (K := Nat) (V := Nat) 0).1,
    (claim_C3 serNat (K := Nat) (V := Nat) 3).2 (by norm_num)⟩

/-- Claim C4: on any store reachable from `NewShardedMap` by a sequence of
calls, `Keys` returns a sequence whose members are exactly the keys on which
`Get` currently reports `found = true`, with no key listed twice. -/
theorem claim_C4 [Inhabited V] {n : Int} {m₀ : ShardedMap K V}
    (hnew : NewShardedMap K V n = some m₀) (ops : List (Op K V)) :
    (∀ k : K, k ∈ (applyOps ser m₀ ops).Keys ↔
      ((applyOps ser m₀ ops).Get ser k).2 = true) ∧
    (applyOps ser m₀ ops).Keys.Nodup := by
  have hwf : WF ser (applyOps ser m₀ ops) :=
    WF_applyOps ser (WF_of_new ser hnew) ops
  constructor
  · intro k
    rw [mem_Keys_iff_getOpt ser hwf]
    cases h : (applyOps ser m₀ ops).getOpt ser k with
    | none => simp [ShardedMap.Get, h]
    | some v => simp [ShardedMap.Get, h]
  · exact nodup_Keys ser hwf

theorem claim_C4_witness :
    (1 ∈ (applyOps serNat (mkStore Nat Nat 2) [Op.set 1 7]).Keys ↔
      ((applyOps serNat (mkStore Nat Nat 2) [Op.set 1 7]).Get serNat 1).2 =
        true) ∧
    (applyOps serNat (mkStore Nat Nat 2) [Op.set 1 7]).Keys.Nodup :=
  have h := claim_C4 serNat (n := 2) rfl [Op.set 1 7]
  ⟨h.1 1, h.2⟩

/-- Claim C5: `Delete` is idempotent — deleting the same key twice yields the
same store state as deleting it once, and on a size-coherent store both leave
`k` absent (a subsequent `Get k` reports the zero value and `false`) — and
deleting an absent key is a no-op that leaves the store state unchanged;
neither case is an error. -/
theorem claim_C5 [Inhabited V] (m : ShardedMap K V) (k : K) :
    (m.Delete ser k).Delete ser k = m.Delete ser k ∧
    (Sized m →
      (m.Delete ser k).Get ser k = (default, false) ∧
      ((m.Delete ser k).Delete ser k).Get ser k = (default, false)) ∧
    (m.getOpt ser k = none → m.Delete ser k = m) := by
  refine ⟨delete_delete ser m k, ?_, fun h => delete_absent ser h⟩
  intro hm
  have habs : (m.Delete ser k).getOpt ser k = none :=
    getOpt_del_op_self ser hm k
  constructor
  · simp [ShardedMap.Get, habs]
  · rw [delete_delete ser m k]
    simp [ShardedMap.Get, habs]

theorem claim_C5_witness :
    ((((mkStore Nat Nat 2).Set serNat 4 10).Delete serNat 4).Delete serNat 4 =
      ((mkStore Nat Nat 2).Set serNat 4 10).Delete serNat 4) ∧
    (((mkStore Nat Nat 2).Set serNat 4 10).Delete serNat 4).Get serNat 4 =
      (default, false) ∧
    ((((mkStore Nat Nat 2).Set serNat 4 10).Delete serNat 4).Delete
      serNat 4).Get serNat 4 = (default, false) ∧
    ((mkStore Nat Nat 2).Set serNat 4 10).Delete serNat 9 =
      (mkStore Nat Nat 2).Set serNat 4 10 :=
  have h₁ := claim_C5 serNat ((mkStore Nat Nat 2).Set serNat 4 10) 4
  have h₂ := claim_C5 serNat ((mkStore Nat Nat 2).Set serNat 4 10) 9
  ⟨h₁.1, (h₁.2.1 ⟨by decide, by decide⟩).1, (h₁.2.1 ⟨by decide, by decide⟩).2,
    h₂.2.2 (by decide)⟩

/-- Claim C6: `Set` is an unconditional overwrite with no insert/update
distinction — setting `k` to `v₁` and then to `v₂` leaves exactly the store
state that setting `k` to `v₂` alone would produce, and a subsequent `Get k`
on a size-coherent store returns `(v₂, true)`. -/
theorem claim_C6 [Inhabited V] (m : ShardedMap K V) (k : K) (v₁ v₂ : V) :
    (m.Set ser k v₁).Set ser k v₂ = m.Set ser k v₂ ∧
    (Sized m → ((m.Set ser k v₁).Set ser k v₂).Get ser k = (v₂, true)) :=
  ⟨set_set_store ser m k v₁ v₂, fun hm => by
    rw [set_set_store]
    exact get_set_self ser hm k v₂⟩

theorem claim_C6_witness :
    (((mkStore Nat Nat 2).Set serNat 5 1).Set serNat 5 2 =
      (mkStore Nat Nat 2).Set serNat 5 2) ∧
    (((mkStore Nat Nat 2).Set serNat 5 1).Set serNat 5 2).Get serNat 5 =
      (2, true) :=
  have h := claim_C6 serNat (mkStore Nat Nat 2) 5 1 2
  ⟨h.1, h.2 ⟨by decide, by decide⟩⟩

/-- Claim C7: the router hashes the key's serialized bytes with 64-bit FNV-1a
and reduces modulo the shard count, so on a size-coherent store the computed
index is below the shard count and below the length of the shard slice (thus
the indexing done by Get, Set and Delete is in bounds), and with one shard
the index is zero for every key. -/
theorem claim_C7 {m : ShardedMap K V} (hm : Sized m) (k : K) :
    getShard ser m k = fnv64a (ser k) % m.numShards ∧
    hashKey ser k < 2 ^ 64 ∧
    getShard ser m k < m.numShards ∧
    getShard ser m k < m.shards.length ∧
    (m.numShards = 1 → getShard ser m k = 0) := by
  refine ⟨rfl, hashKey_lt ser k, getShard_lt ser hm.1 k, ?_, ?_⟩
  · rw [hm.2]
    exact getShard_lt ser hm.1 k
  · intro h₁
    show hashKey ser k % m.numShards = 0
    rw [h₁, Nat.mod_one]

theorem claim_C7_witness :
    getShard serNat (mkStore Nat Nat 1) 7 =
      fnv64a (serNat 7) % (mkStore Nat Nat 1).numShards ∧
    hashKey serNat 7 < 2 ^ 64 ∧
    getShard serNat (mkStore Nat Nat 1) 7 < (mkStore Nat Nat 1).numShards ∧
    getShard serNat (mkStore Nat Nat 1) 7 <
      (mkStore Nat Nat 1).shards.length ∧
    getShard serNat (mkStore Nat Nat 1) 7 = 0 :=
  have h := claim_C7 serNat (m := mkStore Nat Nat 1) ⟨by decide, by decide⟩ 7
  ⟨h.1, h.2.1, h.2.2.1, h.2.2.2.1, h.2.2.2.2 rfl⟩

/-- Claim C8: shard-placement invariant — in every state reachable from
`NewShardedMap` by any call sequence, every key stored in shard `i` is routed
to `i` by `getShard`; hence the key sets of distinct shards are pairwise
disjoint and every present key lives in exactly one shard. -/
theorem claim_C8 {n : Int} {m₀ : ShardedMap K V}
    (hnew : NewShardedMap K V n = some m₀) (ops : List (Op K V)) :
    (∀ i, ∀ x ∈ ((applyOps ser m₀ ops).shards.getD i []).map Prod.fst,
      getShard ser (applyOps ser m₀ ops) x = i) ∧
    (∀ i j, i ≠ j →
      ∀ x ∈ ((applyOps ser m₀ ops).shards.getD i []).map Prod.fst,
      x ∉ ((applyOps ser m₀ ops).shards.getD j []).map Prod.fst) ∧
    (∀ x : K, (applyOps ser m₀ ops).getOpt ser x ≠ none →
      ∃! i, x ∈ ((applyOps ser m₀ ops).shards.getD i []).map Prod.fst) := by
  have hwf : WF ser (applyOps ser m₀ ops) :=
    WF_applyOps ser (WF_of_new ser hnew) ops
  refine ⟨hwf.2.1, ?_, ?_⟩
  · intro i j hij x hxi hxj
    have e₁ := hwf.2.1 i x hxi
    have e₂ := hwf.2.1 j x hxj
    omega
  · intro x hx
    refine ⟨getShard ser (applyOps ser m₀ ops) x, ?_, ?_⟩
    · show x ∈ ((applyOps ser m₀ ops).shards.getD
        (getShard ser (applyOps ser m₀ ops) x) []).map Prod.fst
      rw [mem_keys_iff_getAssoc]
      exact hx
    · intro j hj
      exact (hwf.2.1 j x hj).symm

theorem claim_C8_witness :
    getShard serNat (applyOps serNat (mkStore Nat Nat 2) [Op.set 1 7]) 1 = 0 ∧
    (1 : Nat) ∉
      ((applyOps serNat (mkStore Nat Nat 2)
        [Op.set 1 7]).shards.getD 1 []).map Prod.fst :=
  have h := claim_C8 serNat (n := 2) rfl [Op.set 1 7]
  ⟨h.1 0 1 (by decide), h.2.1 0 1 (by decide) 1 (by decide)⟩

/-- Claim C9: degenerate-case equivalence — for any valid shard count, a
store from `NewShardedMap 1` and one from `NewShardedMap n` subjected to the
same call sequence agree on the `(value, found)` pair of every `Get` and
return `Keys` sequences that are equal as sets. -/
theorem claim_C9 [Inhabited V] {n : Int} {m₁ mN : ShardedMap K V}
    (h₁ : NewShardedMap K V 1 = some m₁)
    (hN : NewShardedMap K V n = some mN) (ops : List (Op K V)) :
    (∀ k : K, (applyOps ser m₁ ops).Get ser k =
      (applyOps ser mN ops).Get ser k) ∧
    (∀ k : K, k ∈ (applyOps ser m₁ ops).Keys ↔
      k ∈ (applyOps ser mN ops).Keys) := by
  obtain ⟨hn₁, rfl⟩ := new_some h₁
  obtain ⟨hnN, rfl⟩ := new_some hN
  have hs₁ : Sized (mkStore K V (1 : Int).toNat) := Sized_mkStore (by omega)
  have hsN : Sized (mkStore K V n.toNat) := Sized_mkStore (by omega)
  have hfun : (fun k₁ => (mkStore K V (1 : Int).toNat).getOpt ser k₁) =
      (fun k₁ => (mkStore K V n.toNat).getOpt ser k₁) := by
    funext k₁
    rw [getOpt_mkStore, getOpt_mkStore]
  have key : ∀ k : K, (applyOps ser (mkStore K V (1 : Int).toNat) ops).getOpt ser k
      = (applyOps ser (mkStore K V n.toNat) ops).getOpt ser k := by
    intro k
    rw [getOpt_applyOps_spec ser hs₁, getOpt_applyOps_spec ser hsN, hfun]
  constructor
  · intro k
    unfold ShardedMap.Get
    rw [key k]
  · intro k
    rw [mem_Keys_iff_getOpt ser
        (WF_applyOps ser (WF_mkStore ser (by omega)) ops),
      mem_Keys_iff_getOpt ser
        (WF_applyOps ser (WF_mkStore ser (by omega)) ops),
      key k]

theorem claim_C9_witness :
    ((applyOps serNat (mkStore Nat Nat 1) [Op.set 1 10, Op.del 1]).Get serNat 1
      = (applyOps serNat (mkStore Nat Nat 3)
          [Op.set 1 10, Op.del 1]).Get serNat 1) ∧
    (1 ∈ (applyOps serNat (mkStore Nat Nat 1) [Op.set 1 10, Op.del 1]).Keys ↔
      1 ∈ (applyOps serNat (mkStore Nat Nat 3) [Op.set 1 10, Op.del 1]).Keys) :=
  have h := claim_C9 serNat (n := 3) rfl rfl [Op.set 1 10, Op.del 1]
  ⟨h.1 1, h.2 1⟩

/-- Claim C10: the router is a pure function of the key and the shard count —
two stores with the same shard count route every key to the same index,
independently of their contents or history, and the index is determined by
the FNV-64a hash of the key's bytes reduced modulo the shard count. -/
theorem claim_C10 (m₁ m₂ : ShardedMap K V) (k : K)
    (h : m₁.numShards = m₂.numShards) :
    getShard ser m₁ k = getShard ser m₂ k ∧
    getShard ser m₁ k = hashKey ser k % m₁.numShards :=
  ⟨getShard_congr ser k h, rfl⟩

theorem claim_C10_witness :
    getShard serNat (mkStore Nat Nat 4) 11 =
      getShard serNat ((mkStore Nat Nat 4).Set serNat 3 99) 11 ∧
    getShard serNat (mkStore Nat Nat 4) 11 =
      hashKey serNat 11 % (mkStore Nat Nat 4).numShards :=
  claim_C10 serNat (mkStore Nat Nat 4)
    ((mkStore Nat Nat 4).Set serNat 3 99) 11 rfl

end ShardedKV
